import Mathlib

/-!
Verification of the fourier-fit quantitative back end.

The Rust source is shallowly embedded as follows:
* `f64` values flowing through the algebraic paths (polynomial coefficients,
  complex roots, candle data, cutoff periods) are modelled by exact rationals
  `ℚ`; the paths that evaluate transcendental functions (the Bode magnitude
  curve) are modelled over `ℝ`.
* An IEEE `NaN` output is modelled by `none : Option ℝ`; the positive-infinity
  sentinel component produced by the z-plane map is the explicit constructor
  `XF.pinf`.
* `Result<T, String>` becomes `Except`; the three distinct error strings of
  `poly_roots_ascending_real` become the constructors of `PolyError`
  (rendered back to their literal messages by `polyErrorMessage`).
* The external dense eigenvalue routine (`ndarray_linalg::EigVals::eigvals`)
  and the external filter-design backend (`sci_rs` / `scirs2`) are not part of
  this repository; they are passed in as explicit function parameters
  (`EigSolver`, `FilterBackend`).
-/

namespace FourierFit

/-- A `num_complex::Complex<f64>` value as an exact (re, im) pair. -/
abbrev Cplx := ℚ × ℚ

/-- Squared magnitude `re² + im²` of a complex pair.  For finite inputs the
source's `Complex::norm` (a hypot call) is zero exactly when this is zero. -/
def cnormSq (w : Cplx) : ℚ := w.1 * w.1 + w.2 * w.2

/-- Complex multiplication on pairs. -/
def cmul (u w : Cplx) : Cplx := (u.1 * w.1 - u.2 * w.2, u.1 * w.2 + u.2 * w.1)

/-- An `f64` component that is either finite or the positive-infinity
sentinel; the type has no NaN value. -/
inductive XF where
  | fin : ℚ → XF
  | pinf : XF
deriving DecidableEq

/-- A z-plane root: a pair of possibly-infinite components. -/
abbrev XCplx := XF × XF

/-- The distinct error strings produced by `poly_roots_ascending_real`
(src/lib.rs lines 166-201). -/
inductive PolyError where
  | emptyInput
  | zeroPolynomial
  | eigvalsFailed : String → PolyError
deriving DecidableEq

/-- The literal `String` carried by each `PolyError` in the Rust source. -/
def polyErrorMessage : PolyError → String
  | .emptyInput => "Empty polynomial"
  | .zeroPolynomial => "Zero polynomial"
  | .eigvalsFailed e => "eigvals failed: " ++ e

/-- Rust `iter().rposition(|&x| x != 0.0)`: index of the last non-zero
coefficient, scanning from the highest index down. -/
def rpositionNonzero : List ℚ → Option ℕ
  | [] => none
  | x :: xs =>
    match rpositionNonzero xs with
    | some i => some (i + 1)
    | none => if x ≠ 0 then some 0 else none

/-- The `deg × deg` companion matrix built in `poly_roots_ascending_real`:
row 0 holds `-c[deg-1-j]` (the negated sub-leading monic coefficients in
reverse order), each later row `i` has a single 1 at column `i - 1`.  Entries
are complex pairs with zero imaginary part, as in the source
(`Complex::new(-a, 0.0)` / `Complex::new(1.0, 0.0)`). -/
def companion (deg : ℕ) (c : List ℚ) : Matrix (Fin deg) (Fin deg) Cplx :=
  fun i j =>
    if i.val = 0 then (-(c.getD (deg - 1 - j.val) 0), 0)
    else if j.val + 1 = i.val then (1, 0)
    else (0, 0)

/-- Abstract dense eigenvalue backend (`ndarray_linalg::EigVals::eigvals`),
external to the repository: given a `d × d` complex matrix it returns the
eigenvalues, or a convergence-failure message. -/
abbrev EigSolver := (d : ℕ) → Matrix (Fin d) (Fin d) Cplx → Except String (List Cplx)

/-- Documented contract of the external eigenvalue routine: on success a
`d × d` matrix yields exactly `d` eigenvalues. -/
def EigSpec (eig : EigSolver) : Prop :=
  ∀ d M l, eig d M = .ok l → l.length = d

/-- src/lib.rs `poly_roots_ascending_real`: trim trailing zeros, reject empty
and all-zero inputs, return no roots for a constant, otherwise normalize to a
monic polynomial, build the companion matrix and hand it to the eigenvalue
backend. -/
def poly_roots_ascending_real (eig : EigSolver) (c_in : List ℚ) :
    Except PolyError (List Cplx) :=
  if c_in = [] then .error .emptyInput
  else
    match rpositionNonzero c_in with
    | none => .error .zeroPolynomial
    | some deg =>
      if deg = 0 then .ok []
      else
        let lead := c_in.getD deg 0
        let c := (c_in.take (deg + 1)).map (· / lead)
        match eig deg (companion deg c) with
        | .ok l => .ok l
        | .error e => .error (.eigvalsFailed e)

/-- The per-root closure `inv` inside `iir_zeros_poles_z`: `z = 1/w` by
complex division `(1 + 0i)/w = (re - im·i)/(re² + im²)`, except that a root of
magnitude exactly zero maps to the `(+∞, +∞)` sentinel. -/
def inv_root (w : Cplx) : XCplx :=
  if cnormSq w = 0 then (XF.pinf, XF.pinf)
  else (XF.fin (w.1 / cnormSq w), XF.fin (-w.2 / cnormSq w))

/-- src/lib.rs `iir_zeros_poles_z`: roots of `b` and of `a` in the transform
variable `w`, each mapped elementwise to the z-plane by `inv_root`. -/
def iir_zeros_poles_z (eig : EigSolver) (b a : List ℚ) :
    Except PolyError (List XCplx × List XCplx) := do
  let zeros_w ← poly_roots_ascending_real eig b
  let poles_w ← poly_roots_ascending_real eig a
  return (zeros_w.map inv_root, poles_w.map inv_root)

/-- Extended rationals with both `⊥` (the fold seed `f64::NEG_INFINITY`) and
`⊤` (the seed `f64::INFINITY`). -/
abbrev ExtQ := WithBot (WithTop ℚ)

/-- Coercion of a finite value into `ExtQ`. -/
def toExtQ (q : ℚ) : ExtQ := ((q : WithTop ℚ) : ExtQ)

/-- src/candles.rs `Candle`.  `open`/`close` are chunk elements and stay
finite; `high`/`low` are computed by folds seeded at `∓∞` and therefore live
in `ExtQ`; `t` is the ordinal chunk index (`i as f64`). -/
structure Candle where
  t : ℕ
  open_ : ℚ
  high : ExtQ
  low : ExtQ
  close_ : ℚ
deriving DecidableEq

instance : Inhabited Candle := ⟨⟨0, 0, ⊥, ⊤, 0⟩⟩

/-- Rust `slice::chunks_exact`: the `⌊len / k⌋` full non-overlapping windows
of width `k` starting at index 0, in order; the trailing partial window is
dropped. -/
def chunksExact (data : List ℚ) (k : ℕ) : List (List ℚ) :=
  (List.range (data.length / k)).map (fun i => (data.drop (i * k)).take k)

/-- src/candles.rs `vec_to_candles` (lines 449-469): reject a zero chunk
size, then one candle per full chunk with `open`/`close` the first/last
element and `high`/`low` folds of `max`/`min` seeded at `-∞`/`+∞`. -/
def vec_to_candles (data : List ℚ) (num_per_candle : ℕ) :
    Except String (List Candle) :=
  if num_per_candle = 0 then
    .error "Cannot have a chunk size of zero in candle making function"
  else
    .ok ((chunksExact data num_per_candle).enum.map (fun p =>
      { t := p.1
        open_ := p.2.getD 0 0
        close_ := p.2.getD (p.2.length - 1) 0
        high := p.2.foldl (fun prev curr => max prev (toExtQ curr)) ⊥
        low := p.2.foldl (fun prev curr => min prev (toExtQ curr)) ⊤ }))

/-- src/filters.rs `NYQUIST_PERIOD`. -/
def NYQUIST_PERIOD : ℚ := 2

/-- src/filters.rs `cutoff_period_to_nyquist`. -/
def cutoff_period_to_nyquist (period : ℚ) : Except String ℚ :=
  if period < NYQUIST_PERIOD then
    .error ("Period of " ++ toString period ++
      " is below the nyquist period of " ++ toString NYQUIST_PERIOD)
  else
    .ok (NYQUIST_PERIOD / period)

/-- src/lib.rs `FilterType`. -/
inductive FilterType where
  | BUTTERWORTH
  | CHEBYSHEV1
  | CHEBYSHEV2
deriving DecidableEq

/-- src/filters.rs `FilterData`: the designed coefficients and the filtered
signal produced by the external backend. -/
structure FilterData where
  filtered_data : List ℚ
  b : List ℚ
  a : List ℚ
deriving DecidableEq

/-- The three filter-design entry points of src/filters.rs.  Their bodies
delegate to the external `scirs2`/`sci_rs` crates, so they are abstracted as
supplied functions with the same signatures
(data, cutoff, order [, ripple / attenuation]). -/
structure FilterBackend where
  butterworth_filter : List ℚ → ℚ → ℕ → Except String FilterData
  chebyshev_filter_1 : List ℚ → ℚ → ℕ → ℚ → Except String FilterData
  chebyshev_filter_2 : List ℚ → ℚ → ℕ → ℚ → Except String FilterData

/-- src/lib.rs `App`: the mutable application state.  The Bode curve is a
pair of frequency and magnitude sequences over `ℝ`, with `none` for a NaN
magnitude sample. -/
structure AppState where
  raw_data : Option (List ℚ)
  filter : FilterType
  cutoff_freq : ℚ
  filtered_data : Option FilterData
  order : ℕ
  ripple : ℚ
  attenuation : ℚ
  poles : Option (List XCplx)
  zeros : Option (List XCplx)
  bode_plot : Option (List ℝ × List (Option ℝ))
  data_spectrum : Option (List ℝ)
  candles : Option (List Candle)

/-- The `match self.filter` dispatch at the top of `App::filter`. -/
def design_step (fb : FilterBackend) (st : AppState) (data : List ℚ) :
    Except String FilterData :=
  match st.filter with
  | .BUTTERWORTH => fb.butterworth_filter data st.cutoff_freq st.order
  | .CHEBYSHEV1 => fb.chebyshev_filter_1 data st.cutoff_freq st.order st.ripple
  | .CHEBYSHEV2 => fb.chebyshev_filter_2 data st.cutoff_freq st.order st.attenuation

/-- src/lib.rs `App::filter` (lines 82-116).  Rust mutates `self` in place
and returns `Result<(), String>`; here the updated state is returned next to
the outcome.  Note that `self.filtered_data` is assigned before the
zeros/poles step runs, and the candle step swallows its error with `.ok()`. -/
def app_filter (fb : FilterBackend) (eig : EigSolver) (st : AppState) :
    AppState × Except String Unit :=
  match st.raw_data with
  | none => (st, .error "No data set")
  | some data =>
    match design_step fb st data with
    | .error e => (st, .error e)
    | .ok f =>
      let st1 := { st with filtered_data := some f }
      match iir_zeros_poles_z eig f.b f.a with
      | .error e => (st1, .error (polyErrorMessage e))
      | .ok zp =>
        let st2 := { st1 with zeros := some zp.1, poles := some zp.2 }
        let st3 := { st2 with candles := (vec_to_candles data 2).toOption }
        (st3, .ok ())

/-- src/math.rs `poly_roots_ascending_real` (lines 191-223): the second,
textually independent copy of the root solver.  The body below is that file's
code; it is compared with the src/lib.rs copy in the C10 theorem. -/
def math_poly_roots_ascending_real (eig : EigSolver) (c_in : List ℚ) :
    Except PolyError (List Cplx) :=
  if c_in = [] then .error .emptyInput
  else
    match rpositionNonzero c_in with
    | none => .error .zeroPolynomial
    | some deg =>
      if deg = 0 then .ok []
      else
        let lead := c_in.getD deg 0
        let c := (c_in.take (deg + 1)).map (· / lead)
        match eig deg (Matrix.of (fun (i : Fin deg) (j : Fin deg) =>
            if i.val = 0 then ((-(c.getD (deg - 1 - j.val) 0) : ℚ), (0 : ℚ))
            else if j.val + 1 = i.val then ((1 : ℚ), (0 : ℚ))
            else ((0 : ℚ), (0 : ℚ)))) with
        | .ok l => .ok l
        | .error e => .error (.eigvalsFailed e)

/-- One step of the incremental-rotation loop of `bode_mag_logspace`: the
state is `((sum_r, sum_i), (zr, zi))`; each coefficient adds `coeff · z` to
the sum and then multiplies `z` by `(c - j·s)` via the source's component
formulas. -/
def cstep (c s : ℝ) (st : (ℝ × ℝ) × (ℝ × ℝ)) (bk : ℝ) : (ℝ × ℝ) × (ℝ × ℝ) :=
  ((st.1.1 + bk * st.2.1, st.1.2 + bk * st.2.2),
   (st.2.1 * c + st.2.2 * s, st.2.2 * c - st.2.1 * s))

/-- The accumulated complex sum `Σ coeff[k] · e^{-jωk}` as computed by the
source loop: fold `cstep` from sum `0` and rotation `1`. -/
def csum (coeffs : List ℝ) (c s : ℝ) : ℝ × ℝ :=
  (coeffs.foldl (cstep c s) ((0, 0), (1, 0))).1

open scoped Classical in
/-- The `H = num/den` magnitude block at the end of each `bode_mag_logspace`
iteration: `NaN` (modelled `none`) unless the squared denominator magnitude
is strictly positive. -/
noncomputable def bodeMagOfPair (num den : ℝ × ℝ) : Option ℝ :=
  let den_mag2 := den.1 * den.1 + den.2 * den.2
  if 0 < den_mag2 then
    let h_r := (num.1 * den.1 + num.2 * den.2) / den_mag2
    let h_i := (num.2 * den.1 - num.1 * den.2) / den_mag2
    some (Real.sqrt (h_r * h_r + h_i * h_i))
  else
    none

/-- `f_min = (fs * 1e-4).max(1e-9)` from src/bode.rs. -/
noncomputable def bode_f_min (fs : ℝ) : ℝ := max (fs * 1e-4) 1e-9

/-- `f_max = (fs * 0.5).max(f_min * 10.0)` from src/bode.rs. -/
noncomputable def bode_f_max (fs : ℝ) : ℝ := max (fs * 0.5) (bode_f_min fs * 10)

/-- The `i`-th grid frequency of src/bode.rs for a clamped point count `n`:
`exp(log_fmin + t · (log_fmax - log_fmin))` with `t = i / (n - 1)`. -/
noncomputable def bode_freq (fs : ℝ) (n : ℕ) (i : ℕ) : ℝ :=
  Real.exp (Real.log (bode_f_min fs) +
    ((i : ℝ) / ((n - 1 : ℕ) : ℝ)) *
      (Real.log (bode_f_max fs) - Real.log (bode_f_min fs)))

/-- The `i`-th magnitude sample of src/bode.rs for a clamped point count `n`:
evaluate both coefficient sums at `ω = 2π·f/fs` and divide. -/
noncomputable def bode_mag_at (b a : List ℝ) (fs : ℝ) (n : ℕ) (i : ℕ) :
    Option ℝ :=
  let f := bode_freq fs n i
  let omega := 2 * Real.pi * (f / fs)
  let c := Real.cos omega
  let s := Real.sin omega
  bodeMagOfPair (csum b c s) (csum a c s)

/-- src/bode.rs `bode_mag_logspace` (lines 29-96): clamp `n_points` to at
least 16, then push one `(freq, mag)` pair per loop iteration. -/
noncomputable def bode_mag_logspace (b a : List ℝ) (fs : ℝ) (n_points : ℕ) :
    List ℝ × List (Option ℝ) :=
  let n := max n_points 16
  ((List.range n).map (bode_freq fs n),
   (List.range n).map (bode_mag_at b a fs n))

open scoped Classical in
/-- src/math.rs `bode_mag_logspace` (lines 242-301): the second, textually
independent copy of the Bode evaluator, with the bounds and the per-sample
computation written out inline as in that file.  It is compared with the
src/bode.rs copy in the C10 theorem. -/
noncomputable def math_bode_mag_logspace (b a : List ℝ) (fs : ℝ)
    (n_points : ℕ) : List ℝ × List (Option ℝ) :=
  let n := max n_points 16
  let f_min := max (fs * 1e-4) 1e-9
  let f_max := max (fs * 0.5) (f_min * 10)
  let log_fmin := Real.log f_min
  let log_fmax := Real.log f_max
  ((List.range n).map (fun (i : ℕ) =>
      Real.exp (log_fmin + ((i : ℝ) / ((n - 1 : ℕ) : ℝ)) * (log_fmax - log_fmin))),
   (List.range n).map (fun (i : ℕ) =>
      let f := Real.exp (log_fmin + ((i : ℝ) / ((n - 1 : ℕ) : ℝ)) * (log_fmax - log_fmin))
      let omega := 2 * Real.pi * (f / fs)
      let c := Real.cos omega
      let s := Real.sin omega
      let num := (b.foldl (fun st bk =>
        ((st.1.1 + bk * st.2.1, st.1.2 + bk * st.2.2),
         (st.2.1 * c + st.2.2 * s, st.2.2 * c - st.2.1 * s)))
        (((0 : ℝ), (0 : ℝ)), ((1 : ℝ), (0 : ℝ)))).1
      let den := (a.foldl (fun st ak =>
        ((st.1.1 + ak * st.2.1, st.1.2 + ak * st.2.2),
         (st.2.1 * c + st.2.2 * s, st.2.2 * c - st.2.1 * s)))
        (((0 : ℝ), (0 : ℝ)), ((1 : ℝ), (0 : ℝ)))).1
      let den_mag2 := den.1 * den.1 + den.2 * den.2
      if 0 < den_mag2 then
        let h_r := (num.1 * den.1 + num.2 * den.2) / den_mag2
        let h_i := (num.2 * den.1 - num.1 * den.2) / den_mag2
        some (Real.sqrt (h_r * h_r + h_i * h_i))
      else
        none))

/-- The complex number denoted by an `(re, im)` pair of reals. -/
def toC (p : ℝ × ℝ) : ℂ := ⟨p.1, p.2⟩

/-- The claim-side reference formula for the frequency response: the complex
sum `Σ_k coeff[k] · e^{-jωk}` written with `Complex.exp`. -/
noncomputable def specResp (coeffs : List ℝ) (omega : ℝ) : ℂ :=
  ∑ k ∈ Finset.range coeffs.length,
    (coeffs.getD k 0 : ℂ) * Complex.exp (-((omega : ℂ) * k) * Complex.I)

/-- The angular frequency `ω = 2π·f/fs` used at grid point `i`. -/
noncomputable def specOmega (fs : ℝ) (n i : ℕ) : ℝ :=
  2 * Real.pi * (bode_freq fs n i / fs)

/-- The maximum of a non-empty rational list (claim-side notion of the
"maximum element" of a candle window). -/
def listMax (l : List ℚ) : ℚ := l.foldl max l.headI

/-- The minimum of a non-empty rational list. -/
def listMin (l : List ℚ) : ℚ := l.foldl min l.headI

/-- An eigenvalue backend that always reports failure; used to exercise the
paths that never reach the eigenvalue computation. -/
def eigTriv : EigSolver := fun _ _ => .error "no eigen backend"

/-- An eigenvalue backend that returns the right number of (dummy) eigenvalues
for every matrix; used to exercise success paths. -/
def eigConst : EigSolver := fun d _ => .ok (List.replicate d ((0 : ℚ), (0 : ℚ)))

/-- A filter-design backend that always fails. -/
def fbTriv : FilterBackend :=
  { butterworth_filter := fun _ _ _ => .error "backend unavailable"
    chebyshev_filter_1 := fun _ _ _ _ => .error "backend unavailable"
    chebyshev_filter_2 := fun _ _ _ _ => .error "backend unavailable"
    }

/-- A filter-design backend whose Butterworth branch succeeds but returns a
numerator polynomial `b = [0]` on which the root solver fails. -/
def cexFB : FilterBackend :=
  { butterworth_filter := fun _ _ _ => .ok ⟨[], [0], [1]⟩
    chebyshev_filter_1 := fun _ _ _ _ => .error "unused"
    chebyshev_filter_2 := fun _ _ _ _ => .error "unused"
    }

/-- A concrete application state with data loaded and a previously computed
`filtered_data` result. -/
def cexSt : AppState :=
  { raw_data := some [1, 2]
    filter := .BUTTERWORTH
    cutoff_freq := 1
    filtered_data := some ⟨[5], [5], [5]⟩
    order := 4
    ripple := 5
    attenuation := 40
    poles := none
    zeros := none
    bode_plot := none
    data_spectrum := none
    candles := none
    }

/-- The same state with no raw data loaded. -/
def stNoData : AppState := { cexSt with raw_data := none }

end FourierFit

deriving instance DecidableEq for Except

namespace FourierFit

/-- The last-nonzero index is `none` exactly on all-zero coefficient lists. -/
theorem rpositionNonzero_eq_none (c : List ℚ) :
    rpositionNonzero c = none ↔ ∀ x ∈ c, x = 0 := by
  induction c with
  | nil => simp [rpositionNonzero]
  | cons x xs ih =>
    constructor
    · intro h
      simp only [rpositionNonzero] at h
      cases hxs : rpositionNonzero xs with
      | some i => rw [hxs] at h; exact absurd h (by simp)
      | none =>
        rw [hxs] at h
        by_cases hx : x = 0
        · intro y hy
          rcases List.mem_cons.mp hy with rfl | hy'
          · exact hx
          · exact (ih.mp hxs) y hy'
        · simp [hx] at h
    · intro h
      have hx : x = 0 := h x (List.mem_cons_self x xs)
      have hxs : rpositionNonzero xs = none :=
        ih.mpr (fun y hy => h y (List.mem_cons_of_mem x hy))
      simp [rpositionNonzero, hxs, hx]

/-- A pair has squared magnitude zero exactly when it is the origin. -/
theorem cnormSq_eq_zero_iff (w : Cplx) : cnormSq w = 0 ↔ w = (0, 0) := by
  constructor
  · intro h
    rw [cnormSq] at h
    have h1 : w.1 * w.1 = 0 := by nlinarith [mul_self_nonneg w.1, mul_self_nonneg w.2]
    have h2 : w.2 * w.2 = 0 := by nlinarith [mul_self_nonneg w.1, mul_self_nonneg w.2]
    have := mul_self_eq_zero.mp h1
    have := mul_self_eq_zero.mp h2
    exact Prod.ext (by assumption) (by assumption)
  · rintro rfl
    simp [cnormSq]

/-- Branch reduction: the empty-input case of the root solver. -/
theorem poly_roots_nil (eig : EigSolver) :
    poly_roots_ascending_real eig [] = .error .emptyInput := rfl

/-- Branch reduction: the all-zero case of the root solver. -/
theorem poly_roots_allzero (eig : EigSolver) (c : List ℚ) (hc : c ≠ [])
    (hr : rpositionNonzero c = none) :
    poly_roots_ascending_real eig c = .error .zeroPolynomial := by
  unfold poly_roots_ascending_real
  rw [if_neg hc, hr]

/-- Branch reduction: the constant-polynomial case of the root solver. -/
theorem poly_roots_deg0 (eig : EigSolver) (c : List ℚ) (hc : c ≠ [])
    (hr : rpositionNonzero c = some 0) :
    poly_roots_ascending_real eig c = .ok [] := by
  unfold poly_roots_ascending_real
  rw [if_neg hc, hr]
  rfl

/-- Branch reduction: the positive-degree case of the root solver hands the
companion matrix of the monic trimmed coefficients to the eigenvalue backend
and wraps its outcome. -/
theorem poly_roots_deg_pos (eig : EigSolver) (c : List ℚ) (d : ℕ)
    (hc : c ≠ []) (hr : rpositionNonzero c = some d) (hd0 : d ≠ 0) :
    poly_roots_ascending_real eig c =
      match eig d (companion d ((c.take (d + 1)).map (· / c.getD d 0))) with
      | .ok l => .ok l
      | .error e => .error (.eigvalsFailed e) := by
  unfold poly_roots_ascending_real
  rw [if_neg hc, hr]
  show (if d = 0 then (Except.ok [] : Except PolyError (List Cplx)) else
    match eig d (companion d ((c.take (d + 1)).map (· / c.getD d 0))) with
    | .ok l => .ok l
    | .error e => .error (.eigvalsFailed e)) = _
  rw [if_neg hd0]

/-- C2: `poly_roots_ascending_real` fails with the empty-input error exactly
when the coefficient list is empty, fails with the zero-polynomial error
exactly when the list is non-empty and all coefficients are zero, and returns
`Ok []` (not an error) whenever the effective degree after trimming trailing
zeros is 0. -/
theorem poly_roots_error_cases (eig : EigSolver) (c : List ℚ) :
    (poly_roots_ascending_real eig c = .error .emptyInput ↔ c = []) ∧
    (poly_roots_ascending_real eig c = .error .zeroPolynomial ↔
      c ≠ [] ∧ ∀ x ∈ c, x = 0) ∧
    (rpositionNonzero c = some 0 → poly_roots_ascending_real eig c = .ok []) := by
  by_cases hc : c = []
  · subst hc
    refine ⟨by simp [poly_roots_nil], by simp [poly_roots_nil], ?_⟩
    intro h
    simp [rpositionNonzero] at h
  · cases hr : rpositionNonzero c with
    | none =>
      have hall := (rpositionNonzero_eq_none c).mp hr
      refine ⟨?_, ?_, ?_⟩
      · rw [poly_roots_allzero eig c hc hr]
        simp [hc]
      · rw [poly_roots_allzero eig c hc hr]
        exact ⟨fun _ => ⟨hc, hall⟩, fun _ => rfl⟩
      · exact fun h => absurd h (by simp)
    | some d =>
      have hnall : ¬ ∀ x ∈ c, x = 0 := by
        intro hall
        rw [(rpositionNonzero_eq_none c).mpr hall] at hr
        exact absurd hr (by simp)
      cases d with
      | zero =>
        rw [poly_roots_deg0 eig c hc hr]
        exact ⟨by simp [hc], by simp [hnall], fun _ => rfl⟩
      | succ d' =>
        rw [poly_roots_deg_pos eig c (d' + 1) hc hr (by omega)]
        cases he : eig (d' + 1)
            (companion (d' + 1) ((c.take (d' + 1 + 1)).map (· / c.getD (d' + 1) 0))) with
        | ok l =>
          exact ⟨by simp [hc], by simp [hnall], fun h => absurd h (by simp)⟩
        | error s =>
          exact ⟨by simp [hc], by simp [hnall], fun h => absurd h (by simp)⟩

/-- C2 witness: the concrete cases `[]`, `[0, 0, 0]` and `[5, 0, 0]` from the
specification. -/
theorem poly_roots_error_cases_witness :
    poly_roots_ascending_real eigTriv [] = .error .emptyInput ∧
    poly_roots_ascending_real eigTriv [0, 0, 0] = .error .zeroPolynomial ∧
    poly_roots_ascending_real eigTriv [5, 0, 0] = .ok [] :=
  ⟨(poly_roots_error_cases eigTriv []).1.mpr rfl,
   (poly_roots_error_cases eigTriv [0, 0, 0]).2.1.mpr ⟨by decide, by decide⟩,
   (poly_roots_error_cases eigTriv [5, 0, 0]).2.2 (by decide)⟩

/-- C1: on a coefficient list of effective degree `d ≥ 1`, whenever the
external eigenvalue routine meets its contract and succeeds on the companion
matrix of the monic-normalized trimmed coefficients, the solver returns `Ok`
with exactly `d` roots, and the returned roots are, as a multiset, exactly
those eigenvalues (no positional guarantee is used). -/
theorem poly_roots_degree_count (eig : EigSolver) (heig : EigSpec eig)
    (c : List ℚ) (d : ℕ) (hd : rpositionNonzero c = some d) (h1 : 1 ≤ d)
    (l : List Cplx)
    (hok : eig d (companion d ((c.take (d + 1)).map (· / c.getD d 0))) = .ok l) :
    ∃ roots, poly_roots_ascending_real eig c = .ok roots ∧
      roots.length = d ∧ (roots : Multiset Cplx) = (l : Multiset Cplx) := by
  have hc : c ≠ [] := by
    intro h
    subst h
    simp [rpositionNonzero] at hd
  have hd0 : d ≠ 0 := by omega
  refine ⟨l, ?_, heig _ _ _ hok, rfl⟩
  rw [poly_roots_deg_pos eig c d hc hd hd0, hok]

/-- C1 witness: the specification's known case `[2, -3, 1]` (degree 2), with
a backend that honours the eigenvalue-count contract. -/
theorem poly_roots_degree_count_witness :
    ∃ roots, poly_roots_ascending_real eigConst [2, -3, 1] = .ok roots ∧
      roots.length = 2 ∧
      (roots : Multiset Cplx) =
        (List.replicate 2 ((0 : ℚ), (0 : ℚ)) : List Cplx) :=
  poly_roots_degree_count eigConst
    (fun _ _ _ h => by
      simp only [eigConst, Except.ok.injEq] at h
      rw [← h, List.length_replicate])
    [2, -3, 1] 2 (by decide) (by decide) _ rfl

/-- C3: once both root computations succeed, `iir_zeros_poles_z` cannot fail
and returns the two input sequences mapped elementwise (order- and
length-preserving) through the per-root map; that map sends `w` with
`|w| ≠ 0` to exactly `z = 1/w` (the finite pair `z` with `z·w = 1`) and sends
`w` with `|w| = 0` — i.e. `w = 0` — to the `(+∞, +∞)` sentinel, never to a
NaN (the sentinel case is an exact characterization). -/
theorem iir_zeros_poles_z_mapping (eig : EigSolver) (b a : List ℚ)
    (zw pw : List Cplx)
    (hz : poly_roots_ascending_real eig b = .ok zw)
    (hp : poly_roots_ascending_real eig a = .ok pw) :
    iir_zeros_poles_z eig b a = .ok (zw.map inv_root, pw.map inv_root) ∧
    (zw.map inv_root).length = zw.length ∧
    (pw.map inv_root).length = pw.length ∧
    ∀ w : Cplx,
      (cnormSq w = 0 ↔ w = (0, 0)) ∧
      (cnormSq w = 0 ↔ inv_root w = (XF.pinf, XF.pinf)) ∧
      (cnormSq w ≠ 0 →
        ∃ z : Cplx, inv_root w = (XF.fin z.1, XF.fin z.2) ∧ cmul z w = (1, 0)) := by
  refine ⟨?_, List.length_map _ _, List.length_map _ _, ?_⟩
  · unfold iir_zeros_poles_z
    rw [hz, hp]
    rfl
  · intro w
    refine ⟨cnormSq_eq_zero_iff w, ?_, ?_⟩
    · constructor
      · intro h
        simp [inv_root, h]
      · intro h
        by_contra hn
        simp [inv_root, hn] at h
    · intro hn
      refine ⟨(w.1 / cnormSq w, -w.2 / cnormSq w), by simp [inv_root, hn], ?_⟩
      have hq : w.1 * w.1 + w.2 * w.2 ≠ 0 := by
        rw [cnormSq] at hn
        exact hn
      simp only [cmul, cnormSq]
      refine Prod.ext ?_ ?_
      · show w.1 / (w.1 * w.1 + w.2 * w.2) * w.1 -
          -w.2 / (w.1 * w.1 + w.2 * w.2) * w.2 = 1
        field_simp
      · show w.1 / (w.1 * w.1 + w.2 * w.2) * w.2 +
          -w.2 / (w.1 * w.1 + w.2 * w.2) * w.1 = 0
        field_simp
        ring

/-- C3 witness: a run in which both root computations succeed (degree-1
numerator and denominator, with the dummy eigenvalue backend). -/
theorem iir_zeros_poles_z_mapping_witness :
    iir_zeros_poles_z eigConst [1, 1] [1, 1] =
      .ok ([((0 : ℚ), (0 : ℚ))].map inv_root, [((0 : ℚ), (0 : ℚ))].map inv_root) ∧
    ([((0 : ℚ), (0 : ℚ))].map inv_root).length = [((0 : ℚ), (0 : ℚ))].length ∧
    ([((0 : ℚ), (0 : ℚ))].map inv_root).length = [((0 : ℚ), (0 : ℚ))].length ∧
    ∀ w : Cplx,
      (cnormSq w = 0 ↔ w = (0, 0)) ∧
      (cnormSq w = 0 ↔ inv_root w = (XF.pinf, XF.pinf)) ∧
      (cnormSq w ≠ 0 →
        ∃ z : Cplx, inv_root w = (XF.fin z.1, XF.fin z.2) ∧ cmul z w = (1, 0)) :=
  iir_zeros_poles_z_mapping eigConst [1, 1] [1, 1]
    [((0 : ℚ), (0 : ℚ))] [((0 : ℚ), (0 : ℚ))] rfl rfl

/-- C9: the z-plane map is its own inverse away from the origin — for every
non-zero finite root `w` the map produces the finite pair
`(w.re/|w|², -w.im/|w|²)` and applying the map to that pair returns `w`
exactly; the origin itself goes to the `(+∞, +∞)` sentinel, and `0.5 + 0j`
goes to `2 + 0j`. -/
theorem inv_root_involution :
    (∀ w : Cplx, w ≠ (0, 0) →
      inv_root w = (XF.fin (w.1 / cnormSq w), XF.fin (-w.2 / cnormSq w)) ∧
      inv_root (w.1 / cnormSq w, -w.2 / cnormSq w) = (XF.fin w.1, XF.fin w.2)) ∧
    inv_root ((1 : ℚ) / 2, 0) = (XF.fin 2, XF.fin 0) ∧
    inv_root (0, 0) = (XF.pinf, XF.pinf) := by
  refine ⟨?_, by norm_num [inv_root, cnormSq], by norm_num [inv_root, cnormSq]⟩
  intro w hw
  have hn : cnormSq w ≠ 0 := fun h => hw ((cnormSq_eq_zero_iff w).mp h)
  have hq : w.1 * w.1 + w.2 * w.2 ≠ 0 := by rw [cnormSq] at hn; exact hn
  refine ⟨by simp [inv_root, hn], ?_⟩
  have hm : cnormSq (w.1 / cnormSq w, -w.2 / cnormSq w) = 1 / cnormSq w := by
    simp only [cnormSq] at hq ⊢
    field_simp
  have hn2 : cnormSq (w.1 / cnormSq w, -w.2 / cnormSq w) ≠ 0 := by
    rw [hm]
    exact one_div_ne_zero hn
  have e1 : (w.1 / cnormSq w) / (1 / cnormSq w) = w.1 := by
    field_simp
  have e2 : (-(-w.2 / cnormSq w)) / (1 / cnormSq w) = w.2 := by
    field_simp
  calc inv_root (w.1 / cnormSq w, -w.2 / cnormSq w)
      = (XF.fin ((w.1 / cnormSq w) / (1 / cnormSq w)),
         XF.fin (-(-w.2 / cnormSq w) / (1 / cnormSq w))) := by
        unfold inv_root
        rw [if_neg hn2, hm]
    _ = (XF.fin w.1, XF.fin w.2) := by rw [e1, e2]

/-- C9 witness: the double application at the concrete non-zero root
`w = 0.5 + 0j`. -/
theorem inv_root_involution_witness :
    inv_root ((1 : ℚ) / 2, 0) =
      (XF.fin (((1 : ℚ) / 2, (0 : ℚ)).1 / cnormSq ((1 : ℚ) / 2, 0)),
       XF.fin (-((1 : ℚ) / 2, (0 : ℚ)).2 / cnormSq ((1 : ℚ) / 2, 0))) ∧
    inv_root (((1 : ℚ) / 2, (0 : ℚ)).1 / cnormSq ((1 : ℚ) / 2, 0),
        -((1 : ℚ) / 2, (0 : ℚ)).2 / cnormSq ((1 : ℚ) / 2, 0)) =
      (XF.fin (((1 : ℚ) / 2, (0 : ℚ)).1), XF.fin (((1 : ℚ) / 2, (0 : ℚ)).2)) :=
  inv_root_involution.1 ((1 : ℚ) / 2, 0) (by norm_num [Prod.ext_iff])

/-- C8: `cutoff_period_to_nyquist` fails (with its descriptive message)
exactly when the period is below `NYQUIST_PERIOD = 2`, otherwise returns
`NYQUIST_PERIOD / period`; in particular `2 ↦ Ok 1` and `1` fails. -/
theorem cutoff_period_to_nyquist_spec :
    NYQUIST_PERIOD = 2 ∧
    (∀ period : ℚ,
      (∃ msg, cutoff_period_to_nyquist period = .error msg) ↔
        period < NYQUIST_PERIOD) ∧
    (∀ period : ℚ, ¬ period < NYQUIST_PERIOD →
      cutoff_period_to_nyquist period = .ok (NYQUIST_PERIOD / period)) ∧
    cutoff_period_to_nyquist 2 = .ok 1 ∧
    (∃ msg, cutoff_period_to_nyquist 1 = .error msg) := by
  refine ⟨rfl, ?_, ?_, ?_, ?_⟩
  · intro period
    constructor
    · rintro ⟨msg, hmsg⟩
      by_contra hlt
      rw [cutoff_period_to_nyquist, if_neg hlt] at hmsg
      exact absurd hmsg (by simp)
    · intro hlt
      exact ⟨_, by rw [cutoff_period_to_nyquist, if_pos hlt]⟩
  · intro period hlt
    rw [cutoff_period_to_nyquist, if_neg hlt]
  · norm_num [cutoff_period_to_nyquist, NYQUIST_PERIOD]
  · refine ⟨"Period of " ++ toString (1 : ℚ) ++
      " is below the nyquist period of " ++ toString NYQUIST_PERIOD, ?_⟩
    rw [cutoff_period_to_nyquist, if_pos (by norm_num [NYQUIST_PERIOD])]

/-- C8 witness: the success branch at the concrete period 4 (a period not
below the Nyquist floor). -/
theorem cutoff_period_to_nyquist_spec_witness :
    cutoff_period_to_nyquist 4 = .ok (NYQUIST_PERIOD / 4) :=
  cutoff_period_to_nyquist_spec.2.2.1 4 (by norm_num [NYQUIST_PERIOD])

/-- C10: the src/math.rs copies of `bode_mag_logspace` and of
`poly_roots_ascending_real` agree with the src/bode.rs and src/lib.rs copies
on every input. -/
theorem duplicate_definitions_agree :
    (∀ b a fs n_points,
      bode_mag_logspace b a fs n_points = math_bode_mag_logspace b a fs n_points) ∧
    (∀ eig c_in,
      poly_roots_ascending_real eig c_in = math_poly_roots_ascending_real eig c_in) := by
  constructor
  · intro b a fs n
    rfl
  · intro eig c
    rfl

/-- Finite coercion into `ExtQ` commutes with `max`. -/
theorem toExtQ_max (a b : ℚ) : max (toExtQ a) (toExtQ b) = toExtQ (max a b) := by
  rw [toExtQ, toExtQ, toExtQ, ← WithBot.coe_max, ← WithTop.coe_max]

/-- Finite coercion into `ExtQ` commutes with `min`. -/
theorem toExtQ_min (a b : ℚ) : min (toExtQ a) (toExtQ b) = toExtQ (min a b) := by
  rw [toExtQ, toExtQ, toExtQ, ← WithBot.coe_min, ← WithTop.coe_min]

/-- A `max` fold over finite values started at a finite seed stays finite. -/
theorem foldl_max_toExtQ (xs : List ℚ) (q : ℚ) :
    xs.foldl (fun prev curr => max prev (toExtQ curr)) (toExtQ q) =
      toExtQ (xs.foldl max q) := by
  induction xs generalizing q with
  | nil => rfl
  | cons y ys ih =>
    rw [List.foldl_cons, List.foldl_cons, toExtQ_max, ih]

/-- A `min` fold over finite values started at a finite seed stays finite. -/
theorem foldl_min_toExtQ (xs : List ℚ) (q : ℚ) :
    xs.foldl (fun prev curr => min prev (toExtQ curr)) (toExtQ q) =
      toExtQ (xs.foldl min q) := by
  induction xs generalizing q with
  | nil => rfl
  | cons y ys ih =>
    rw [List.foldl_cons, List.foldl_cons, toExtQ_min, ih]

/-- The candle `high` fold: seeded at `-∞`, over a non-empty finite chunk it
computes exactly the chunk's maximum element. -/
theorem candle_high_eq (l : List ℚ) (hl : l ≠ []) :
    l.foldl (fun prev curr => max prev (toExtQ curr)) ⊥ = toExtQ (listMax l) := by
  obtain ⟨x, xs, rfl⟩ := List.exists_cons_of_ne_nil hl
  rw [List.foldl_cons, max_eq_right bot_le, foldl_max_toExtQ]
  simp [listMax, max_self]

/-- The candle `low` fold: seeded at `+∞`, over a non-empty finite chunk it
computes exactly the chunk's minimum element. -/
theorem candle_low_eq (l : List ℚ) (hl : l ≠ []) :
    l.foldl (fun prev curr => min prev (toExtQ curr)) ⊤ = toExtQ (listMin l) := by
  obtain ⟨x, xs, rfl⟩ := List.exists_cons_of_ne_nil hl
  rw [List.foldl_cons, min_eq_right le_top, foldl_min_toExtQ]
  simp [listMin, min_self]

/-- A full chunk of a list long enough to contain it has length exactly `k`. -/
theorem window_length (data : List ℚ) (k i : ℕ) (hk : k ≠ 0)
    (hi : i < data.length / k) :
    ((data.drop (i * k)).take k).length = k := by
  have h1 : i * k + k ≤ data.length := by
    have h := (Nat.le_div_iff_mul_le (Nat.pos_of_ne_zero hk)).mp hi
    calc i * k + k = (i + 1) * k := by ring
    _ ≤ data.length := h
  rw [List.length_take, List.length_drop]
  exact Nat.min_eq_left (Nat.le_sub_of_add_le (by rwa [Nat.add_comm] at h1))

/-- C5: `vec_to_candles` fails exactly on chunk size 0; otherwise it returns
`⌊len/k⌋` candles, one per full window, the trailing partial window dropped,
where candle `i` has `t = i`, `open` the window's first element, `close` its
last, `high` its maximum and `low` its minimum. -/
theorem vec_to_candles_spec (data : List ℚ) (k : ℕ) (hk : k ≠ 0) :
    vec_to_candles data 0 =
      .error "Cannot have a chunk size of zero in candle making function" ∧
    ∃ cs, vec_to_candles data k = .ok cs ∧
      cs.length = data.length / k ∧
      ∀ i, i < data.length / k →
        cs.getD i default =
          { t := i
            open_ := ((data.drop (i * k)).take k).getD 0 0
            high := toExtQ (listMax ((data.drop (i * k)).take k))
            low := toExtQ (listMin ((data.drop (i * k)).take k))
            close_ := ((data.drop (i * k)).take k).getD
              (((data.drop (i * k)).take k).length - 1) 0 } := by
  refine ⟨rfl, ?_⟩
  rw [vec_to_candles, if_neg hk]
  refine ⟨_, rfl, ?_, ?_⟩
  · simp [chunksExact]
  · intro i hi
    have hwnil : (data.drop (i * k)).take k ≠ [] := by
      intro h
      have := window_length data k i hk hi
      rw [h] at this
      exact hk this.symm
    have hwin : (chunksExact data k)[i]? = some ((data.drop (i * k)).take k) := by
      simp [chunksExact, List.getElem?_range hi]
    have henum : ((chunksExact data k).enum)[i]? =
        some (i, (data.drop (i * k)).take k) := by
      rw [List.getElem?_enum, hwin]
      rfl
    rw [List.getD_eq_getElem?_getD, List.getElem?_map, henum]
    simp only [Option.map_some', Option.getD_some]
    simp [Candle.mk.injEq, candle_high_eq _ hwnil, candle_low_eq _ hwnil]

/-- C5 witness: the specification's example `[1,2,3,4,5,6]` with chunk size
2, yielding exactly the three candles `(0,1,2,2,1)`, `(1,3,4,4,3)`,
`(2,5,6,6,5)`. -/
theorem vec_to_candles_spec_witness :
    vec_to_candles [1, 2, 3, 4, 5, 6] 2 =
      .ok [⟨0, 1, toExtQ 2, toExtQ 1, 2⟩, ⟨1, 3, toExtQ 4, toExtQ 3, 4⟩,
           ⟨2, 5, toExtQ 6, toExtQ 5, 6⟩] := by
  have h := vec_to_candles_spec [1, 2, 3, 4, 5, 6] 2 (by decide)
  decide

/-- C6 counterexample: a run of `App::filter` in which filter construction
succeeds, the root-finding step fails (numerator `b = [0]` is the zero
polynomial), and yet the previously computed `filtered_data` field has
already been overwritten — so the state is partially overwritten on error,
contradicting the claim that every previously computed result field is left
unchanged. -/
theorem app_filter_partial_overwrite :
    (app_filter cexFB eigTriv cexSt).2 = .error "Zero polynomial" ∧
    (app_filter cexFB eigTriv cexSt).1.filtered_data ≠ cexSt.filtered_data := by
  constructor
  · rfl
  · intro h
    have : some (FilterData.mk [] [0] [1]) = some (FilterData.mk [5] [5] [5]) := h
    simp at this

/-- C6 amended: on any failing run of `App::filter` the computation halts at
the first failure and surfaces that failure's error verbatim, and the
`zeros`, `poles`, `bode_plot` and `candles` fields are left unchanged;
`filtered_data` is also unchanged when the failure is missing data or filter
construction, but when the root-finding/z-mapping step fails it has already
been overwritten with the freshly constructed filter output. -/
theorem app_filter_error_halts (fb : FilterBackend) (eig : EigSolver)
    (st : AppState) (e : String)
    (h : (app_filter fb eig st).2 = .error e) :
    ((app_filter fb eig st).1.zeros = st.zeros ∧
     (app_filter fb eig st).1.poles = st.poles ∧
     (app_filter fb eig st).1.bode_plot = st.bode_plot ∧
     (app_filter fb eig st).1.candles = st.candles) ∧
    ((st.raw_data = none ∧ (app_filter fb eig st).1 = st ∧ e = "No data set") ∨
     (∃ data, st.raw_data = some data ∧
       ((design_step fb st data = .error e ∧ (app_filter fb eig st).1 = st) ∨
        (∃ f perr, design_step fb st data = .ok f ∧
          iir_zeros_poles_z eig f.b f.a = .error perr ∧
          e = polyErrorMessage perr ∧
          (app_filter fb eig st).1 = { st with filtered_data := some f })))) := by
  cases hraw : st.raw_data with
  | none =>
    have hres : app_filter fb eig st = (st, .error "No data set") := by
      simp only [app_filter, hraw]
    rw [hres] at h ⊢
    have he : e = "No data set" := by
      have h2 := h
      simp only [Except.error.injEq] at h2
      exact h2.symm
    exact ⟨⟨rfl, rfl, rfl, rfl⟩, .inl ⟨rfl, rfl, he⟩⟩
  | some data =>
    cases hdes : design_step fb st data with
    | error s =>
      have hres : app_filter fb eig st = (st, .error s) := by
        simp only [app_filter, hraw, hdes]
      rw [hres] at h ⊢
      have he : e = s := by
        have h2 := h
        simp only [Except.error.injEq] at h2
        exact h2.symm
      subst he
      exact ⟨⟨rfl, rfl, rfl, rfl⟩, .inr ⟨data, rfl, .inl ⟨hdes, rfl⟩⟩⟩
    | ok f =>
      cases hz : iir_zeros_poles_z eig f.b f.a with
      | error perr =>
        have hres : app_filter fb eig st =
            ({ st with filtered_data := some f }, .error (polyErrorMessage perr)) := by
          simp only [app_filter, hraw, hdes, hz]
        rw [hres] at h ⊢
        have he : e = polyErrorMessage perr := by
          have h2 := h
          simp only [Except.error.injEq] at h2
          exact h2.symm
        exact ⟨⟨rfl, rfl, rfl, rfl⟩,
          .inr ⟨data, rfl, .inr ⟨f, perr, hdes, hz, he, by rw [hraw]⟩⟩⟩
      | ok zp =>
        have hres : (app_filter fb eig st).2 = .ok () := by
          simp only [app_filter, hraw, hdes, hz]
        rw [hres] at h
        exact absurd h (by simp)

/-- C6 amended witness: the missing-data failure at a concrete state. -/
theorem app_filter_error_halts_witness :
    ((app_filter fbTriv eigTriv stNoData).1.zeros = stNoData.zeros ∧
     (app_filter fbTriv eigTriv stNoData).1.poles = stNoData.poles ∧
     (app_filter fbTriv eigTriv stNoData).1.bode_plot = stNoData.bode_plot ∧
     (app_filter fbTriv eigTriv stNoData).1.candles = stNoData.candles) ∧
    ((stNoData.raw_data = none ∧
      (app_filter fbTriv eigTriv stNoData).1 = stNoData ∧
      "No data set" = "No data set") ∨
     (∃ data, stNoData.raw_data = some data ∧
       ((design_step fbTriv stNoData data = .error "No data set" ∧
         (app_filter fbTriv eigTriv stNoData).1 = stNoData) ∨
        (∃ f perr, design_step fbTriv stNoData data = .ok f ∧
          iir_zeros_poles_z eigTriv f.b f.a = .error perr ∧
          "No data set" = polyErrorMessage perr ∧
          (app_filter fbTriv eigTriv stNoData).1 =
            { stNoData with filtered_data := some f })))) :=
  app_filter_error_halts fbTriv eigTriv stNoData "No data set" rfl

/-- The lower grid bound is strictly positive for every sample rate. -/
theorem bode_f_min_pos (fs : ℝ) : 0 < bode_f_min fs :=
  lt_of_lt_of_le (by norm_num) (le_max_right (fs * 1e-4) 1e-9)

/-- The upper grid bound is strictly positive for every sample rate. -/
theorem bode_f_max_pos (fs : ℝ) : 0 < bode_f_max fs :=
  lt_of_lt_of_le (by linarith [bode_f_min_pos fs])
    (le_max_right (fs * 0.5) (bode_f_min fs * 10))

/-- The grid bounds are strictly ordered for every sample rate. -/
theorem bode_f_min_lt_max (fs : ℝ) : bode_f_min fs < bode_f_max fs :=
  lt_of_lt_of_le (by linarith [bode_f_min_pos fs])
    (le_max_right (fs * 0.5) (bode_f_min fs * 10))

/-- The frequency sequence of `bode_mag_logspace` is the grid map. -/
theorem bode_fst (b a : List ℝ) (fs : ℝ) (n : ℕ) :
    (bode_mag_logspace b a fs n).1 =
      (List.range (max n 16)).map (bode_freq fs (max n 16)) := rfl

/-- The magnitude sequence of `bode_mag_logspace` is the per-sample map. -/
theorem bode_snd (b a : List ℝ) (fs : ℝ) (n : ℕ) :
    (bode_mag_logspace b a fs n).2 =
      (List.range (max n 16)).map (bode_mag_at b a fs (max n 16)) := rfl

/-- Grid frequencies are strictly increasing in the index. -/
theorem bode_freq_strictMono (fs : ℝ) (n : ℕ) (hn : 16 ≤ n)
    {i j : ℕ} (hij : i < j) : bode_freq fs n i < bode_freq fs n j := by
  apply Real.exp_lt_exp.mpr
  have hd : 0 < Real.log (bode_f_max fs) - Real.log (bode_f_min fs) :=
    sub_pos.mpr (Real.log_lt_log (bode_f_min_pos fs) (bode_f_min_lt_max fs))
  have hden : (0 : ℝ) < ((n - 1 : ℕ) : ℝ) := by
    exact_mod_cast Nat.pos_of_ne_zero (by omega)
  have ht : (i : ℝ) / ((n - 1 : ℕ) : ℝ) < (j : ℝ) / ((n - 1 : ℕ) : ℝ) :=
    (div_lt_div_iff_of_pos_right hden).mpr (by exact_mod_cast hij)
  have := mul_lt_mul_of_pos_right ht hd
  linarith

/-- Element `i` of the frequency sequence, for `i` inside the grid. -/
theorem bode_fst_getD (b a : List ℝ) (fs : ℝ) (n : ℕ) (i : ℕ)
    (hi : i < max n 16) :
    (bode_mag_logspace b a fs n).1.getD i 0 = bode_freq fs (max n 16) i := by
  rw [bode_fst, List.getD_eq_getElem?_getD, List.getElem?_map,
    List.getElem?_range hi]
  rfl

/-- C7: `bode_mag_logspace` clamps the point count to at least 16 and
returns exactly that many frequency samples (and as many magnitudes),
log-spaced with a constant `ln`-step from `f_min = max(fs·1e-4, 1e-9)` up to
`f_max = max(fs·0.5, 10·f_min)`, both endpoints attained exactly, and the
frequency sequence is strictly increasing. -/
theorem bode_grid_spec (b a : List ℝ) (fs : ℝ) (n_points : ℕ) :
    (bode_mag_logspace b a fs n_points).1.length = max n_points 16 ∧
    (bode_mag_logspace b a fs n_points).2.length = max n_points 16 ∧
    (bode_mag_logspace b a fs n_points).1.getD 0 0 = max (fs * 1e-4) 1e-9 ∧
    (bode_mag_logspace b a fs n_points).1.getD (max n_points 16 - 1) 0 =
      max (fs * 0.5) (10 * max (fs * 1e-4) 1e-9) ∧
    List.Pairwise (· < ·) (bode_mag_logspace b a fs n_points).1 ∧
    (∀ i, i + 1 < max n_points 16 →
      Real.log ((bode_mag_logspace b a fs n_points).1.getD (i + 1) 0) -
        Real.log ((bode_mag_logspace b a fs n_points).1.getD i 0) =
      (Real.log (max (fs * 0.5) (10 * max (fs * 1e-4) 1e-9)) -
        Real.log (max (fs * 1e-4) 1e-9)) /
        ((max n_points 16 - 1 : ℕ) : ℝ)) := by
  have hfmin : max (fs * 1e-4) 1e-9 = bode_f_min fs := rfl
  have hfmax : max (fs * 0.5) (10 * max (fs * 1e-4) 1e-9) = bode_f_max fs := by
    rw [bode_f_max, bode_f_min, mul_comm (max (fs * 1e-4) 1e-9) 10]
  have hn16 : 16 ≤ max n_points 16 := le_max_right n_points 16
  have hden : ((max n_points 16 - 1 : ℕ) : ℝ) ≠ 0 := by
    have : (0 : ℝ) < ((max n_points 16 - 1 : ℕ) : ℝ) := by
      exact_mod_cast Nat.pos_of_ne_zero (by omega)
    linarith
  refine ⟨?_, ?_, ?_, ?_, ?_, ?_⟩
  · rw [bode_fst, List.length_map, List.length_range]
  · rw [bode_snd, List.length_map, List.length_range]
  · rw [bode_fst_getD b a fs n_points 0 (by omega), hfmin, bode_freq]
    norm_num [Real.exp_log (bode_f_min_pos fs)]
  · rw [bode_fst_getD b a fs n_points (max n_points 16 - 1) (by omega),
      hfmax, bode_freq]
    rw [div_self hden]
    rw [show Real.log (bode_f_min fs) +
        1 * (Real.log (bode_f_max fs) - Real.log (bode_f_min fs)) =
        Real.log (bode_f_max fs) from by ring]
    exact Real.exp_log (bode_f_max_pos fs)
  · rw [bode_fst]
    exact (List.pairwise_lt_range (max n_points 16)).map _
      (fun x y h => bode_freq_strictMono fs (max n_points 16) hn16 h)
  · intro i hi
    rw [bode_fst_getD b a fs n_points (i + 1) hi,
      bode_fst_getD b a fs n_points i (by omega), hfmax, hfmin,
      bode_freq, bode_freq, Real.log_exp, Real.log_exp]
    push_cast
    field_simp
    ring

/-- C7 witness: the constant `ln`-step between the first two grid samples at
`fs = 1` with `n_points = 0` (clamped to 16). -/
theorem bode_grid_spec_witness :
    Real.log ((bode_mag_logspace [] [] 1 0).1.getD (0 + 1) 0) -
      Real.log ((bode_mag_logspace [] [] 1 0).1.getD 0 0) =
    (Real.log (max ((1 : ℝ) * 0.5) (10 * max ((1 : ℝ) * 1e-4) 1e-9)) -
      Real.log (max ((1 : ℝ) * 1e-4) 1e-9)) / ((max 0 16 - 1 : ℕ) : ℝ) :=
  (bode_grid_spec [] [] 1 0).2.2.2.2.2 0 (by norm_num)

/-- The pair `(0, 0)` denotes the complex number `0`. -/
theorem toC_zero : toC (0, 0) = 0 := by
  apply Complex.ext <;> simp [toC]

/-- The pair `(1, 0)` denotes the complex number `1`. -/
theorem toC_one : toC (1, 0) = 1 := by
  apply Complex.ext <;> simp [toC]

/-- One loop step: the sum accumulates `coeff · z` and the rotation is
multiplied by `c - s·i`, exactly as the source's component formulas. -/
theorem cstep_toC (c s : ℝ) (st : (ℝ × ℝ) × (ℝ × ℝ)) (bk : ℝ) :
    toC ((cstep c s st bk).1) = toC st.1 + (bk : ℂ) * toC st.2 ∧
    toC ((cstep c s st bk).2) = toC st.2 * (⟨c, -s⟩ : ℂ) := by
  constructor <;>
    (apply Complex.ext <;>
      simp [toC, cstep, Complex.mul_re, Complex.mul_im] <;> ring)

/-- Peeling one coefficient off the geometric coefficient sum. -/
theorem sum_cons_geom (x : ℝ) (xs : List ℝ) (e : ℂ) :
    ∑ k ∈ Finset.range (xs.length + 1), (((x :: xs).getD k 0 : ℝ) : ℂ) * e ^ k =
      (x : ℂ) + (∑ k ∈ Finset.range xs.length, ((xs.getD k 0 : ℝ) : ℂ) * e ^ k) * e := by
  rw [Finset.sum_range_succ']
  simp only [List.getD_cons_succ, List.getD_cons_zero, pow_zero, mul_one,
    pow_succ, ← mul_assoc]
  rw [← Finset.sum_mul]
  ring

/-- The source's incremental-rotation fold computes the geometric complex
sum: starting from accumulator `acc` and rotation `z`, the final accumulator
is `acc + z · Σ_k coeff[k] · (c - s·i)^k`. -/
theorem foldl_cstep_toC (c s : ℝ) (l : List ℝ) (acc z : ℝ × ℝ) :
    toC ((l.foldl (cstep c s) (acc, z)).1) =
      toC acc + toC z * ∑ k ∈ Finset.range l.length,
        ((l.getD k 0 : ℝ) : ℂ) * (⟨c, -s⟩ : ℂ) ^ k := by
  induction l generalizing acc z with
  | nil => simp
  | cons x xs ih =>
    rw [List.foldl_cons]
    have h := ih (cstep c s (acc, z) x).1 (cstep c s (acc, z) x).2
    rw [show ((cstep c s (acc, z) x).1, (cstep c s (acc, z) x).2) =
      cstep c s (acc, z) x from rfl] at h
    rw [h, (cstep_toC c s (acc, z) x).1, (cstep_toC c s (acc, z) x).2,
      List.length_cons, sum_cons_geom]
    ring

/-- Euler: the rotation pair `(cos ω, -sin ω)` is `e^{-jω}`. -/
theorem euler_mk (omega : ℝ) :
    (⟨Real.cos omega, -Real.sin omega⟩ : ℂ) =
      Complex.exp (-(omega : ℂ) * Complex.I) := by
  have h : (-(omega : ℂ) * Complex.I) = (((-omega : ℝ) : ℂ) * Complex.I) := by
    push_cast
    ring
  rw [h]
  apply Complex.ext
  · rw [Complex.exp_ofReal_mul_I_re, Real.cos_neg]
  · rw [Complex.exp_ofReal_mul_I_im, Real.sin_neg]

/-- Powers of the rotation are the sampled exponentials `e^{-jωk}`. -/
theorem euler_pow (omega : ℝ) (k : ℕ) :
    (⟨Real.cos omega, -Real.sin omega⟩ : ℂ) ^ k =
      Complex.exp (-((omega : ℂ) * k) * Complex.I) := by
  rw [euler_mk, ← Complex.exp_nat_mul]
  congr 1
  ring

/-- The loop's accumulated sum is exactly the reference formula
`Σ_k coeff[k] · e^{-jωk}`. -/
theorem toC_csum (coeffs : List ℝ) (omega : ℝ) :
    toC (csum coeffs (Real.cos omega) (Real.sin omega)) = specResp coeffs omega := by
  rw [csum, foldl_cstep_toC, toC_zero, toC_one, specResp]
  rw [Finset.sum_congr rfl (fun k _ => by rw [euler_pow])]
  ring

/-- The magnitude block equals `|num| / |den|` when the squared denominator
magnitude is positive and `NaN` (`none`) otherwise. -/
theorem bodeMagOfPair_eq_abs (nu de : ℝ × ℝ) :
    bodeMagOfPair nu de =
      if 0 < Complex.normSq (toC de)
      then some (Complex.abs (toC nu) / Complex.abs (toC de))
      else none := by
  have hde : Complex.normSq (toC de) = de.1 * de.1 + de.2 * de.2 :=
    Complex.normSq_mk de.1 de.2
  have hnu : Complex.normSq (toC nu) = nu.1 * nu.1 + nu.2 * nu.2 :=
    Complex.normSq_mk nu.1 nu.2
  by_cases h : 0 < de.1 * de.1 + de.2 * de.2
  · rw [bodeMagOfPair]
    rw [if_pos h, if_pos (by rw [hde]; exact h)]
    dsimp only
    congr 1
    have hd : de.1 * de.1 + de.2 * de.2 ≠ 0 := ne_of_gt h
    have hval : (nu.1 * de.1 + nu.2 * de.2) / (de.1 * de.1 + de.2 * de.2) *
          ((nu.1 * de.1 + nu.2 * de.2) / (de.1 * de.1 + de.2 * de.2)) +
        (nu.2 * de.1 - nu.1 * de.2) / (de.1 * de.1 + de.2 * de.2) *
          ((nu.2 * de.1 - nu.1 * de.2) / (de.1 * de.1 + de.2 * de.2)) =
        (nu.1 * nu.1 + nu.2 * nu.2) / (de.1 * de.1 + de.2 * de.2) := by
      field_simp
      ring
    rw [hval,
      Real.sqrt_div (add_nonneg (mul_self_nonneg nu.1) (mul_self_nonneg nu.2)),
      Complex.abs_apply,
      Complex.abs_apply, hde, hnu]
  · rw [bodeMagOfPair]
    rw [if_neg h, if_neg (by rw [hde]; exact h)]

/-- The per-sample computation in terms of the reference formula. -/
theorem bode_mag_at_eq (b a : List ℝ) (fs : ℝ) (n i : ℕ) :
    bode_mag_at b a fs n i =
      if 0 < Complex.normSq (specResp a (specOmega fs n i))
      then some (Complex.abs (specResp b (specOmega fs n i)) /
                 Complex.abs (specResp a (specOmega fs n i)))
      else none := by
  rw [specOmega, bode_mag_at, bodeMagOfPair_eq_abs, toC_csum, toC_csum]

/-- Element `i` of the magnitude sequence, for `i` inside the grid. -/
theorem bode_snd_getD (b a : List ℝ) (fs : ℝ) (n : ℕ) (i : ℕ)
    (hi : i < max n 16) :
    (bode_mag_logspace b a fs n).2.getD i none =
      bode_mag_at b a fs (max n 16) i := by
  rw [bode_snd, List.getD_eq_getElem?_getD, List.getElem?_map,
    List.getElem?_range hi]
  rfl

/-- The single-coefficient sum never uses the rotation: it is `(1, 0)`. -/
theorem csum_single (c s : ℝ) : csum [1] c s = (1, 0) := by
  simp only [csum, List.foldl_cons, List.foldl_nil, cstep]
  norm_num

/-- The magnitude block at `num = den = (1, 0)` is exactly `1`. -/
theorem bodeMagOfPair_one : bodeMagOfPair (1, 0) (1, 0) = some 1 := by
  rw [bodeMagOfPair]
  norm_num

/-- C4: every magnitude sample of `bode_mag_logspace` equals the modulus of
the complex ratio `|Σ b[k] e^{-jωk}| / |Σ a[k] e^{-jωk}|` whenever the
squared denominator magnitude is strictly positive, and is `NaN` (modelled
`none`) otherwise; for the identity filter `b = [1]`, `a = [1]` every sample
equals `1` for every sample rate and point count. -/
theorem bode_mag_formula :
    (∀ (b a : List ℝ) (fs : ℝ) (n i : ℕ), i < max n 16 →
      (0 < Complex.normSq (specResp a (specOmega fs (max n 16) i)) →
        (bode_mag_logspace b a fs n).2.getD i none =
          some (Complex.abs (specResp b (specOmega fs (max n 16) i)) /
                Complex.abs (specResp a (specOmega fs (max n 16) i)))) ∧
      (¬ 0 < Complex.normSq (specResp a (specOmega fs (max n 16) i)) →
        (bode_mag_logspace b a fs n).2.getD i none = none)) ∧
    (∀ (fs : ℝ) (n i : ℕ), i < max n 16 →
      (bode_mag_logspace [1] [1] fs n).2.getD i none = some 1) := by
  constructor
  · intro b a fs n i hi
    rw [bode_snd_getD b a fs n i hi, bode_mag_at_eq]
    constructor
    · intro hpos
      rw [if_pos hpos]
    · intro hneg
      rw [if_neg hneg]
  · intro fs n i hi
    rw [bode_snd_getD [1] [1] fs n i hi, bode_mag_at]
    rw [csum_single, bodeMagOfPair_one]

/-- C4 witness: the first grid sample of the identity filter at `fs = 1`,
whose denominator sum is the non-zero constant `1`. -/
theorem bode_mag_formula_witness :
    (bode_mag_logspace [1] [1] 1 0).2.getD 0 none =
      some (Complex.abs (specResp [1] (specOmega 1 (max 0 16) 0)) /
            Complex.abs (specResp [1] (specOmega 1 (max 0 16) 0))) :=
  (bode_mag_formula.1 [1] [1] 1 0 0 (by norm_num)).1
    (by simp [specResp])

end FourierFit
